import Mathlib

/-!
Shallow embedding of the daangn-marketplace crawl pipeline
(carrot-require-crawl.py, carrot-require-crawl-apple.py,
carrot-rough-crawl.py) and proofs about its dedupe, filter,
enrichment-merge, batching, delay and list-expansion logic.
-/

namespace Crawl

/-- One list-stage record, as pushed by the card-extraction JS of
carrot-require-crawl.py / carrot-require-crawl-apple.py:
fields title, price, location, time, status, url, category. -/
structure Item where
  title : String
  price : String
  location : String
  time : String
  status : String
  url : String
  category : String
deriving DecidableEq, Repr

/-- Result of the detail-page extraction JS (`_extract_detail_js`)
in carrot-require-crawl.py / -apple.py: title, location, category. -/
structure Detail where
  title : String
  location : String
  category : String
deriving DecidableEq, Repr

/-- The `fail_result` sentinel of `_fetch_detail`: all fields empty. -/
def failResult : Detail := ⟨"", "", ""⟩

/-- Model of `_fetch_detail(page, url)`.  `page.goto` may raise (caught,
returns the sentinel); a `wait_for_selector` failure only triggers a
fallback wait and does not affect the returned value; `page.evaluate`
may raise (caught, returns the sentinel); otherwise the extracted detail
data is returned.  No exception escapes the function. -/
def fetchDetail (gotoOk evalOk : Bool) (d : Detail) : Detail :=
  if gotoOk && evalOk then d else failResult

/-- Outcome of one task as delivered by
`asyncio.gather(*tasks, return_exceptions=True)`: either the value the
coroutine returned, or the exception object it raised. -/
inductive TaskResult where
  | exn : TaskResult
  | ok : Detail → TaskResult
deriving DecidableEq, Repr

/-- The `isinstance(r, Exception)` test applied to a gather result. -/
def TaskResult.isExn : TaskResult → Bool
  | .exn => true
  | .ok _ => false

/-- The `extra` dict bound in the merge loop: the all-empty sentinel when
the gather result is an exception object, else the returned dict. -/
def TaskResult.extra : TaskResult → Detail
  | .exn => failResult
  | .ok d => d

/-- The merge step of carrot-require-crawl.py (and -apple.py) `main`:
each of title, location, category is overwritten only when the fetched
value is truthy, i.e. a non-empty string. -/
def mergeDetail (it : Item) (extra : Detail) : Item :=
  { it with
    title := if extra.title ≠ "" then extra.title else it.title,
    location := if extra.location ≠ "" then extra.location else it.location,
    category := if extra.category ≠ "" then extra.category else it.category }

/-- One iteration of the merge loop body: turn the gather result into the
`extra` dict (sentinel on exception) and merge it into the record. -/
def mergeOutcome (it : Item) (r : TaskResult) : Item :=
  mergeDetail it r.extra

/-- One record of carrot-rough-crawl.py: the list-stage card extraction
fills title..category plus empty description / image_count; the remaining
fields are added by the detail merge loop. -/
structure RoughItem where
  title : String
  price : String
  location : String
  time : String
  status : String
  url : String
  category : String
  description : String
  image_count : String
  seller_nickname : String
  chat_count : String
  interest_count : String
  view_count : String
  manner_temperature : String
deriving DecidableEq, Repr

/-- Result of the detail-page extraction JS of carrot-rough-crawl.py. -/
structure RoughDetail where
  title : String
  description : String
  image_count : String
  seller_nickname : String
  location : String
  category : String
  chat_count : String
  interest_count : String
  view_count : String
  manner_temperature : String
deriving DecidableEq, Repr

/-- The merge step of carrot-rough-crawl.py `main` (lines 382-399):
title and location are overwritten only when the fetched value is
non-empty, but description, image_count, seller_nickname, category,
chat_count, interest_count, view_count and manner_temperature are
assigned unconditionally from the fetched dict. -/
def roughMerge (it : RoughItem) (extra : RoughDetail) : RoughItem :=
  { it with
    title := if extra.title ≠ "" then extra.title else it.title,
    description := extra.description,
    image_count := extra.image_count,
    seller_nickname := extra.seller_nickname,
    location := if extra.location ≠ "" then extra.location else it.location,
    category := extra.category,
    chat_count := extra.chat_count,
    interest_count := extra.interest_count,
    view_count := extra.view_count,
    manner_temperature := extra.manner_temperature }

/-- An all-empty rough detail result (what a fully empty detail page, or a
page-level fetch failure inside the rough `_fetch_detail`, produces). -/
def roughEmptyDetail : RoughDetail := ⟨"", "", "", "", "", "", "", "", "", ""⟩

/-- A concrete rough list-stage record whose category was already known
from the card view. -/
def sampleRoughItem : RoughItem :=
  { title := "에어팟 프로", price := "50,000원", location := "역삼동",
    time := "1일 전", status := "판매중", url := "https://www.daangn.com/a/1",
    category := "디지털기기", description := "", image_count := "",
    seller_nickname := "", chat_count := "", interest_count := "",
    view_count := "", manner_temperature := "" }

/-- Python `str.strip()`: remove leading and trailing whitespace. -/
def stripWS (s : List Char) : List Char :=
  ((s.dropWhile Char.isWhitespace).reverse.dropWhile Char.isWhitespace).reverse

/-- The normalization inside `_parse_price`
(carrot-require-crawl-apple.py): strip, delete every ',' and every '원',
strip again. -/
def normalizePrice (s : List Char) : List Char :=
  stripWS ((stripWS s).filter (fun c => !(c == ',' || c == '원')))

/-- All maximal digit runs of a character list, in order
(`re.findall(r"\d+", s)`), computed with explicit fuel; the fuel is
always at least the list length at call sites, so the 0-fuel branch on a
non-empty list is never reached. -/
def digitRunsFuel : Nat → List Char → List (List Char)
  | _, [] => []
  | 0, _ :: _ => []
  | f + 1, c :: rest =>
    if c.isDigit then
      (c :: rest.takeWhile Char.isDigit) :: digitRunsFuel f (rest.dropWhile Char.isDigit)
    else digitRunsFuel f rest

/-- All maximal digit runs of a character list, in order:
`re.findall(r"\d+", s)`. -/
def digitRuns (l : List Char) : List (List Char) :=
  digitRunsFuel l.length l

/-- Numeric value of a digit string, `int(...)` on a digits-only string. -/
def digitsToNat (ds : List Char) : Nat :=
  ds.foldl (fun a c => a * 10 + (c.toNat - 48)) 0

/-- Model of `_parse_price(price_str)`: falsy (empty) input gives None;
otherwise normalize, collect the digit runs, give None when there are
none, else the integer value of the first run. -/
def parsePrice (s : String) : Option Nat :=
  if s = "" then none
  else
    match digitRuns (normalizePrice s.data) with
    | [] => none
    | ds :: _ => some (digitsToNat ds)

/-- Spec-side description of "the first run of digits": scan to the first
digit and take the maximal digit run starting there. -/
def firstDigitRun : List Char → Option (List Char)
  | [] => none
  | c :: rest =>
    if c.isDigit then some (c :: rest.takeWhile Char.isDigit)
    else firstDigitRun rest

/-- SOLD_STATUSES of carrot-require-crawl-apple.py. -/
def SOLD_STATUSES : List String := ["거래완료", "판매완료"]

/-- Keep-condition of the apple status/price filter loop: with sold_only
the stripped status must be in SOLD_STATUSES; the parsed price must not
be None and not below min_price; with a configured max_price, not above
it (the loop `continue`s otherwise). -/
def appleKeep (soldOnly : Bool) (minP : Int) (maxP : Option Int) (it : Item) : Bool :=
  (if soldOnly then decide (String.mk (stripWS it.status.data) ∈ SOLD_STATUSES) else true) &&
  (match parsePrice it.price with
   | none => false
   | some v =>
       decide (minP ≤ (v : Int)) &&
       (match maxP with
        | none => true
        | some m => decide ((v : Int) ≤ m)))

/-- The status/price filter stage of carrot-require-crawl-apple.py. -/
def statusPriceFilter (soldOnly : Bool) (minP : Int) (maxP : Option Int)
    (items : List Item) : List Item :=
  items.filter (appleKeep soldOnly minP maxP)

/-- The URL-dedupe pass: a record is kept when its url is truthy
(non-empty) and not in the seen set; the seen set is modelled as the list
of urls already added. -/
def dedupeAux (seen : List String) : List Item → List Item
  | [] => []
  | i :: rest =>
    if i.url ≠ "" ∧ i.url ∉ seen then i :: dedupeAux (i.url :: seen) rest
    else dedupeAux seen rest

/-- URL dedupe over a whole record list (seen_urls starts empty). -/
def dedupe (items : List Item) : List Item := dedupeAux [] items

/-- Python falsiness of `(category or "").strip()`: the category is empty
or whitespace only. -/
def blankCat (it : Item) : Bool := it.category.data.all Char.isWhitespace

/-- The category pre-pass before the detail stage: with an allow-set,
known-allowed records (category in the set) followed by unknown records
(blank category), each subsequence in input order; with no allow-set the
identity. -/
def categoryPrePass (allowed : Option (List String)) (items : List Item) : List Item :=
  match allowed with
  | none => items
  | some aset =>
      items.filter (fun i => decide (i.category ∈ aset)) ++ items.filter blankCat

/-- The post-enrichment category filter (items_to_write). -/
def postFilter (allowed : Option (List String)) (items : List Item) : List Item :=
  match allowed with
  | none => items
  | some aset => items.filter (fun i => decide (i.category ∈ aset))

/-- concurrency = min(DETAIL_PAGE_CONCURRENCY, total) if total else 0. -/
def poolSize (c total : Nat) : Nat := if total = 0 then 0 else min c total

/-- Fuel-indexed chunking; the fuel is always at least the list length
at call sites, so the 0-fuel branch on a non-empty list is never
reached. -/
def chunksOfFuel (c : Nat) : Nat → List α → List (List α)
  | _, [] => []
  | 0, x :: xs => [x :: xs]
  | f + 1, x :: xs => (x :: xs.take (c - 1)) :: chunksOfFuel c f (xs.drop (c - 1))

/-- Partition into consecutive chunks xs[0:c], xs[c:2c], ...; used with
c ≥ 1, matching `for chunk_start in range(0, total, c)` with slice
`xs[chunk_start : chunk_start + c]`. -/
def chunksOf (c : Nat) (l : List α) : List (List α) :=
  chunksOfFuel c l.length l

/-- DETAIL_PAGE_DELAY_MS. -/
def DETAIL_PAGE_DELAY_MS : Nat := 800

/-- DETAIL_PAGE_DELAY_MS_ON_FAIL. -/
def DETAIL_PAGE_DELAY_MS_ON_FAIL : Nat := 200

/-- DETAIL_PAGE_CONCURRENCY. -/
def DETAIL_PAGE_CONCURRENCY : Nat := 4

/-- One full run of the batched enrichment loop on (record,
gather-result) pairs: each batch merges results[j] into chunk[j]
(gather returns results in task order), batches are consecutive chunks
of size c. -/
def enrichPairsFuel (c : Nat) : Nat → List (Item × TaskResult) → List Item
  | _, [] => []
  | 0, l => l.map fun p => mergeOutcome p.1 p.2
  | f + 1, x :: xs =>
      ((x :: xs.take (c - 1)).map fun p => mergeOutcome p.1 p.2)
        ++ enrichPairsFuel c f (xs.drop (c - 1))

/-- The batched enrichment loop (fuel at least the list length at every
call site, so the 0-fuel branch is never reached). -/
def enrichPairs (c : Nat) (l : List (Item × TaskResult)) : List Item :=
  enrichPairsFuel c l.length l

/-- Computation of `any_fail` for one batch: some gather result is an
exception object. -/
def anyFail (b : List (Item × TaskResult)) : Bool :=
  b.any fun p => p.2.isExn

/-- The sequence of inter-batch waits the loop performs: after a batch
that is not the last (`chunk_start + len(chunk) < total`), the failure
delay when any gather result of the batch is an exception object, else
the normal delay; nothing after the last batch. -/
def batchDelaysFuel (c failD normD : Nat) : Nat → List (Item × TaskResult) → List Nat
  | _, [] => []
  | 0, _ :: _ => []
  | f + 1, x :: xs =>
      if (xs.drop (c - 1)).isEmpty then []
      else
        (if anyFail (x :: xs.take (c - 1)) then failD else normD)
          :: batchDelaysFuel c failD normD f (xs.drop (c - 1))

/-- The inter-batch wait sequence (fuel at least the list length at every
call site, so the 0-fuel branch is never reached). -/
def batchDelays (c failD normD : Nat) (l : List (Item × TaskResult)) : List Nat :=
  batchDelaysFuel c failD normD l.length l

/-- Environment of the load-more loop, indexed by outer iteration: the
card count read at the top of iteration i, and whether at iteration i the
more-button exists, is enabled, and the click succeeds. -/
structure ExpandEnv where
  obs : Nat → Nat
  btnPresent : Nat → Bool
  btnEnabled : Nat → Bool
  clickOk : Nat → Bool

/-- Why the load-more loop stopped. -/
inductive StopReason where
  | targetReached
  | stalled
  | noButton
  | btnDisabled
  | clickFailed
deriving DecidableEq, Repr

/-- The load-more loop of `main`: read the count; stop at target reached,
stalled count, missing or disabled button, or failed click; otherwise
remember the count, click, poll, and loop.  Returns (final count, number
of triggers performed, stop reason); `none` when the fuel runs out. -/
def expandLoop (env : ExpandEnv) (target : Nat) :
    Nat → Nat → Nat → Nat → Option (Nat × Nat × StopReason)
  | 0, _, _, _ => none
  | fuel + 1, prev, i, trig =>
    let c := env.obs i
    if target ≤ c then some (c, trig, .targetReached)
    else if c = prev then some (c, trig, .stalled)
    else if !env.btnPresent i then some (c, trig, .noButton)
    else if !env.btnEnabled i then some (c, trig, .btnDisabled)
    else if !env.clickOk i then some (c, trig, .clickFailed)
    else expandLoop env target fuel c (i + 1) (trig + 1)

/-- The whole expansion phase: the loop started with prev_count = 0 at
iteration 0, with fuel target + 1 (shown sufficient below). -/
def expand (env : ExpandEnv) (target : Nat) : Option (Nat × Nat × StopReason) :=
  expandLoop env target (target + 1) 0 0 0

/-- The poll sub-loop after a successful click, in ticks of
MORE_BUTTON_POLL_INTERVAL_MS: sleep one interval, read the count, exit
early when it exceeds prev, else continue until the deadline; `cnt t` is
the count observed after the t-th sleep, `r` the ticks remaining before
the deadline, `t` the sleeps already done.  Returns total sleeps done. -/
def pollAux (cnt : Nat → Nat) (prev : Nat) : Nat → Nat → Nat
  | 0, t => t
  | r + 1, t => if prev < cnt (t + 1) then t + 1 else pollAux cnt prev r (t + 1)

/-- Number of poll sleeps performed for a whole poll phase with a
deadline of maxTicks intervals. -/
def pollUsed (cnt : Nat → Nat) (prev maxTicks : Nat) : Nat :=
  pollAux cnt prev maxTicks 0

/-- MORE_BUTTON_POLL_MAX_MS / MORE_BUTTON_POLL_INTERVAL_MS: the poll
deadline expressed in poll intervals. -/
def POLL_MAX_TICKS : Nat := 25

/-- A card source that never grows: every iteration observes n cards,
the more-button is always present, enabled, and clicks succeed. -/
def constEnv (n : Nat) : ExpandEnv :=
  ⟨fun _ => n, fun _ => true, fun _ => true, fun _ => true⟩

/-- A card source that grows by exactly one card per trigger, starting at
n cards; the more-button is always present, enabled, clicks succeed. -/
def growEnv (n : Nat) : ExpandEnv :=
  ⟨fun i => n + i, fun _ => true, fun _ => true, fun _ => true⟩

/-- Observable outcome of one apple run past the filter stage. -/
structure AppleRunOut where
  noQualifying : Bool
  detailVisits : List String
  csvRows : Option (List Item)
deriving DecidableEq, Repr

/-- carrot-require-crawl-apple.py `main` from the raw extracted card list
onward: dedupe, status/price filter, then an early clean return printing
the no-qualifying-records message when the filter output is empty —
before any detail page is opened or visited and before the CSV file is
created; otherwise the category pre-pass, the batched enrichment and the
category post-filter run, and the CSV rows are written. -/
def applePipeline (soldOnly : Bool) (minP : Int) (maxP : Option Int)
    (allowed : Option (List String)) (outs : List TaskResult)
    (raw : List Item) : AppleRunOut :=
  let filtered := statusPriceFilter soldOnly minP maxP (dedupe raw)
  if filtered.isEmpty then
    { noQualifying := true, detailVisits := [], csvRows := none }
  else
    let toDetail := categoryPrePass allowed filtered
    let conc := poolSize DETAIL_PAGE_CONCURRENCY toDetail.length
    let enriched := enrichPairs conc (toDetail.zip outs)
    { noQualifying := false,
      detailVisits := toDetail.map (fun i => i.url),
      csvRows := some (postFilter allowed enriched) }

/-- A concrete record: sold, known category, well-formed price. -/
def itemA : Item :=
  ⟨"아이폰 15", "350,000원", "역삼동", "3일 전", "거래완료",
   "https://www.daangn.com/a/1", "디지털기기"⟩

/-- A concrete record: on sale, unknown category. -/
def itemB : Item :=
  ⟨"맥북 에어", "1,200,000원", "서초동", "1일 전", "판매중",
   "https://www.daangn.com/a/2", ""⟩

/-- A concrete record whose card had no href: its url is empty. -/
def emptyUrlItem : Item :=
  ⟨"광고 카드", "10,000원", "대치동", "2일 전", "판매중", "", "디지털기기"⟩

/-- A concrete record whose price string contains no digit run. -/
def noDigitItem : Item :=
  ⟨"나눔합니다", "나눔", "역삼동", "5일 전", "거래완료",
   "https://www.daangn.com/a/3", ""⟩

/-- Ten candidate records (scenario B of the spec: concurrency 4 over 10
candidates). -/
def tenItems : List Item := List.replicate 10 itemA

/-- A concrete successful detail extraction. -/
def sampleDetail : Detail := ⟨"아이폰 15 프로", "삼성동", "디지털기기"⟩

/-! ## Helper lemmas -/

theorem mergeDetail_frame (it : Item) (d : Detail) :
    (mergeDetail it d).price = it.price ∧ (mergeDetail it d).time = it.time ∧
    (mergeDetail it d).status = it.status ∧ (mergeDetail it d).url = it.url := by
  simp [mergeDetail]

theorem mergeDetail_empty (it : Item) : mergeDetail it failResult = it := by
  simp [mergeDetail, failResult]

theorem mergeOutcome_url (it : Item) (r : TaskResult) :
    (mergeOutcome it r).url = it.url := by
  cases r <;> simp [mergeOutcome, mergeDetail, TaskResult.extra]

theorem dedupeAux_sublist (seen : List String) (xs : List Item) :
    (dedupeAux seen xs).Sublist xs := by
  induction xs generalizing seen with
  | nil => simp [dedupeAux]
  | cons i rest ih =>
    simp only [dedupeAux]
    split_ifs with h
    · exact (ih (i.url :: seen)).cons₂ i
    · exact (ih seen).cons i

theorem mem_dedupeAux (seen : List String) (xs : List Item) :
    ∀ j ∈ dedupeAux seen xs, j.url ≠ "" ∧ j.url ∉ seen := by
  induction xs generalizing seen with
  | nil => simp [dedupeAux]
  | cons i rest ih =>
    intro j hj
    simp only [dedupeAux] at hj
    split_ifs at hj with h
    · rcases List.mem_cons.mp hj with hji | hjt
      · exact hji ▸ h
      · have := ih (i.url :: seen) j hjt
        exact ⟨this.1, fun hs => this.2 (List.mem_cons_of_mem _ hs)⟩
    · exact ih seen j hj

theorem dedupeAux_nodup (seen : List String) (xs : List Item) :
    ((dedupeAux seen xs).map Item.url).Nodup := by
  induction xs generalizing seen with
  | nil => simp [dedupeAux]
  | cons i rest ih =>
    simp only [dedupeAux]
    split_ifs with h
    · simp only [List.map_cons, List.nodup_cons]
      refine ⟨fun hmem => ?_, ih (i.url :: seen)⟩
      rcases List.mem_map.mp hmem with ⟨j, hj, hurl⟩
      exact (mem_dedupeAux _ _ j hj).2 (by simp [hurl])
    · exact ih seen

theorem dedupeAux_find? (xs : List Item) (u : String) :
    ∀ seen, u ≠ "" → u ∉ seen →
    (dedupeAux seen xs).find? (fun i => i.url == u)
      = xs.find? (fun i => i.url == u) := by
  induction xs with
  | nil => intro seen _ _; rfl
  | cons i rest ih =>
    intro seen hu hus
    simp only [dedupeAux]
    split_ifs with h
    · by_cases hiu : i.url = u
      · simp [List.find?_cons, hiu]
      · have hb : (i.url == u) = false := beq_eq_false_iff_ne.mpr hiu
        simp only [List.find?_cons, hb]
        exact ih (i.url :: seen) hu (by
          simp only [List.mem_cons, not_or]
          exact ⟨fun he => hiu he.symm, hus⟩)
    · have hiu : i.url ≠ u := by
        rcases not_and_or.mp h with h1 | h2
        · intro he
          exact hu (by rw [← he]; exact not_not.mp h1)
        · intro he
          exact hus (he ▸ not_not.mp h2)
      have hb : (i.url == u) = false := beq_eq_false_iff_ne.mpr hiu
      simp only [List.find?_cons, hb]
      exact ih seen hu hus

theorem dedupeAux_id (xs : List Item) :
    ∀ seen, (∀ i ∈ xs, i.url ≠ "") → ((xs.map Item.url).Nodup) →
    (∀ i ∈ xs, i.url ∉ seen) → dedupeAux seen xs = xs := by
  induction xs with
  | nil => intro seen _ _ _; rfl
  | cons i rest ih =>
    intro seen h1 h2 h3
    simp only [dedupeAux]
    rw [if_pos ⟨h1 i (List.mem_cons_self i rest), h3 i (List.mem_cons_self i rest)⟩]
    congr 1
    simp only [List.map_cons, List.nodup_cons] at h2
    refine ih (i.url :: seen) (fun j hj => h1 j (List.mem_cons_of_mem _ hj)) h2.2 ?_
    intro j hj
    simp only [List.mem_cons, not_or]
    refine ⟨fun he => h2.1 (he ▸ List.mem_map_of_mem Item.url hj), h3 j (List.mem_cons_of_mem _ hj)⟩

theorem digitRunsFuel_head? :
    ∀ (f : Nat) (l : List Char), l.length ≤ f →
    (digitRunsFuel f l).head? = firstDigitRun l := by
  intro f
  induction f with
  | zero =>
    intro l hl
    cases l with
    | nil => rfl
    | cons c rest => simp at hl
  | succ f ih =>
    intro l hl
    cases l with
    | nil => rfl
    | cons c rest =>
      cases hd : c.isDigit with
      | true => simp [digitRunsFuel, firstDigitRun, hd]
      | false =>
        simp only [digitRunsFuel, firstDigitRun, hd, Bool.false_eq_true, if_false]
        exact ih rest (by simp only [List.length_cons] at hl; omega)

theorem digitRuns_head? (l : List Char) :
    (digitRuns l).head? = firstDigitRun l :=
  digitRunsFuel_head? l.length l le_rfl

theorem parsePrice_eq (s : String) :
    parsePrice s = (firstDigitRun (normalizePrice s.data)).map digitsToNat := by
  unfold parsePrice
  by_cases hs : s = ""
  · subst hs; rfl
  · rw [if_neg hs, ← digitRuns_head? (normalizePrice s.data)]
    cases hr : digitRuns (normalizePrice s.data) with
    | nil => simp [hr]
    | cons ds tl => simp [hr]

theorem firstDigitRun_eq_none (l : List Char) :
    firstDigitRun l = none ↔ ∀ c ∈ l, c.isDigit = false := by
  induction l with
  | nil => simp [firstDigitRun]
  | cons c rest ih =>
    cases hd : c.isDigit <;> simp [firstDigitRun, hd, ih]

theorem chunksOfFuel_eq_nil_iff {α : Type} (c f : Nat) (l : List α) :
    chunksOfFuel c f l = [] ↔ l = [] := by
  cases f <;> cases l <;> simp [chunksOfFuel]

theorem chunksOfFuel_flatten {α : Type} (c : Nat) :
    ∀ (f : Nat) (l : List α), l.length ≤ f → (chunksOfFuel c f l).flatten = l := by
  intro f
  induction f with
  | zero =>
    intro l hl
    cases l with
    | nil => rfl
    | cons x xs => simp at hl
  | succ f ih =>
    intro l hl
    cases l with
    | nil => rfl
    | cons x xs =>
      simp only [chunksOfFuel, List.flatten_cons]
      rw [ih (xs.drop (c - 1))
        (by simp only [List.length_drop]; simp only [List.length_cons] at hl; omega)]
      simp [List.take_append_drop]

theorem chunksOfFuel_length {α : Type} (c : Nat) (hc : 1 ≤ c) :
    ∀ (f : Nat) (l : List α), l.length ≤ f →
    (chunksOfFuel c f l).length = (l.length + c - 1) / c := by
  intro f
  induction f with
  | zero =>
    intro l hl
    cases l with
    | nil =>
      simp only [chunksOfFuel, List.length_nil, Nat.zero_add]
      rw [Nat.div_eq_of_lt (by omega : c - 1 < c)]
    | cons x xs => simp at hl
  | succ f ih =>
    intro l hl
    cases l with
    | nil =>
      simp only [chunksOfFuel, List.length_nil, Nat.zero_add]
      rw [Nat.div_eq_of_lt (by omega : c - 1 < c)]
    | cons x xs =>
      simp only [chunksOfFuel, List.length_cons]
      rw [ih (xs.drop (c - 1))
        (by simp only [List.length_drop]; simp only [List.length_cons] at hl; omega)]
      simp only [List.length_drop]
      by_cases hsz : xs.length ≤ c - 1
      · rw [show xs.length - (c - 1) = 0 by omega]
        rw [Nat.div_eq_of_lt (by omega : 0 + c - 1 < c)]
        rw [show xs.length + 1 + c - 1 = xs.length + c by omega]
        rw [Nat.add_div_right _ (by omega : 0 < c),
            Nat.div_eq_of_lt (by omega : xs.length < c)]
      · rw [show xs.length - (c - 1) + c - 1 = xs.length by omega,
            show xs.length + 1 + c - 1 = xs.length + c by omega,
            Nat.add_div_right _ (by omega : 0 < c)]

theorem chunksOfFuel_sizes {α : Type} (c : Nat) (hc : 1 ≤ c) :
    ∀ (f : Nat) (l : List α), l.length ≤ f →
    ∀ b ∈ chunksOfFuel c f l, 1 ≤ b.length ∧ b.length ≤ c := by
  intro f
  induction f with
  | zero =>
    intro l hl b hb
    cases l with
    | nil => simp [chunksOfFuel] at hb
    | cons x xs => simp at hl
  | succ f ih =>
    intro l hl b hb
    cases l with
    | nil => simp [chunksOfFuel] at hb
    | cons x xs =>
      simp only [chunksOfFuel, List.mem_cons] at hb
      rcases hb with hb | hb
      · subst hb
        simp only [List.length_cons, List.length_take]
        omega
      · exact ih (xs.drop (c - 1))
          (by simp only [List.length_drop]; simp only [List.length_cons] at hl; omega) b hb

theorem chunksOfFuel_dropLast {α : Type} (c : Nat) (hc : 1 ≤ c) :
    ∀ (f : Nat) (l : List α), l.length ≤ f →
    ∀ b ∈ (chunksOfFuel c f l).dropLast, b.length = c := by
  intro f
  induction f with
  | zero =>
    intro l hl b hb
    cases l with
    | nil => simp [chunksOfFuel] at hb
    | cons x xs => simp at hl
  | succ f ih =>
    intro l hl b hb
    cases l with
    | nil => simp [chunksOfFuel] at hb
    | cons x xs =>
      simp only [chunksOfFuel] at hb
      cases hd : xs.drop (c - 1) with
      | nil =>
        rw [hd, (chunksOfFuel_eq_nil_iff c f ([] : List α)).mpr rfl] at hb
        simp at hb
      | cons y ys =>
        rw [hd] at hb
        cases hrest : chunksOfFuel c f (y :: ys) with
        | nil => exact absurd ((chunksOfFuel_eq_nil_iff c f _).mp hrest) (by simp)
        | cons r rs =>
          rw [hrest, List.dropLast_cons₂] at hb
          have hlen : c - 1 + 1 ≤ xs.length := by
            have := congrArg List.length hd
            simp only [List.length_drop, List.length_cons] at this
            omega
          rcases List.mem_cons.mp hb with hb1 | hb2
          · subst hb1
            simp only [List.length_cons, List.length_take]
            omega
          · have hih := ih (xs.drop (c - 1))
              (by simp only [List.length_drop]; simp only [List.length_cons] at hl; omega) b
            rw [hd, hrest] at hih
            exact hih hb2

theorem chunksOf_flatten {α : Type} (c : Nat) (l : List α) :
    (chunksOf c l).flatten = l :=
  chunksOfFuel_flatten c l.length l le_rfl

theorem chunksOf_length {α : Type} (c : Nat) (hc : 1 ≤ c) (l : List α) :
    (chunksOf c l).length = (l.length + c - 1) / c :=
  chunksOfFuel_length c hc l.length l le_rfl

theorem chunksOf_sizes {α : Type} (c : Nat) (hc : 1 ≤ c) (l : List α) :
    ∀ b ∈ chunksOf c l, 1 ≤ b.length ∧ b.length ≤ c :=
  chunksOfFuel_sizes c hc l.length l le_rfl

theorem chunksOf_dropLast {α : Type} (c : Nat) (hc : 1 ≤ c) (l : List α) :
    ∀ b ∈ (chunksOf c l).dropLast, b.length = c :=
  chunksOfFuel_dropLast c hc l.length l le_rfl

theorem enrichPairsFuel_eq_map (c : Nat) :
    ∀ (f : Nat) (l : List (Item × TaskResult)), l.length ≤ f →
    enrichPairsFuel c f l = l.map (fun p => mergeOutcome p.1 p.2) := by
  intro f
  induction f with
  | zero =>
    intro l hl
    cases l with
    | nil => rfl
    | cons x xs => simp at hl
  | succ f ih =>
    intro l hl
    cases l with
    | nil => rfl
    | cons x xs =>
      simp only [enrichPairsFuel]
      rw [ih (xs.drop (c - 1))
        (by simp only [List.length_drop]; simp only [List.length_cons] at hl; omega)]
      rw [← List.map_append]
      congr 1
      simp [List.take_append_drop]

theorem enrichPairs_eq_map (c : Nat) (l : List (Item × TaskResult)) :
    enrichPairs c l = l.map (fun p => mergeOutcome p.1 p.2) :=
  enrichPairsFuel_eq_map c l.length l le_rfl

theorem batchDelaysFuel_eq (c failD normD : Nat) :
    ∀ (f : Nat) (l : List (Item × TaskResult)), l.length ≤ f →
    batchDelaysFuel c failD normD f l
      = ((chunksOfFuel c f l).dropLast).map
          (fun b => if anyFail b then failD else normD) := by
  intro f
  induction f with
  | zero =>
    intro l hl
    cases l with
    | nil => rfl
    | cons x xs => simp at hl
  | succ f ih =>
    intro l hl
    cases l with
    | nil => rfl
    | cons x xs =>
      simp only [batchDelaysFuel, chunksOfFuel]
      cases hd : xs.drop (c - 1) with
      | nil =>
        simp only [hd, List.isEmpty_nil, if_true]
        rw [(chunksOfFuel_eq_nil_iff c f ([] : List (Item × TaskResult))).mpr rfl]
        simp
      | cons y ys =>
        simp only [hd, List.isEmpty_cons, if_false]
        rw [ih (y :: ys) (by
          have := congrArg List.length hd
          simp only [List.length_drop, List.length_cons] at this ⊢
          simp only [List.length_cons] at hl
          omega)]
        cases hrest : chunksOfFuel c f (y :: ys) with
        | nil => exact absurd ((chunksOfFuel_eq_nil_iff c f _).mp hrest) (by simp)
        | cons r rs =>
          simp [hrest, List.dropLast_cons₂]

theorem batchDelays_eq (c failD normD : Nat) (l : List (Item × TaskResult)) :
    batchDelays c failD normD l
      = ((chunksOf c l).dropLast).map (fun b => if anyFail b then failD else normD) :=
  batchDelaysFuel_eq c failD normD l.length l le_rfl

/-! ## Claim theorems -/

/-- C1 (as stated, refuted on carrot-rough-crawl.py): merging an
all-empty detail result into a rough record with a known category blanks
the category field, so the merge there does not overwrite "only when the
fetched value is non-empty" and an all-empty result does not leave every
field unchanged. -/
theorem C1_counterexample :
    sampleRoughItem.category = "디지털기기"
  ∧ (roughMerge sampleRoughItem roughEmptyDetail).category = ""
  ∧ roughMerge sampleRoughItem roughEmptyDetail ≠ sampleRoughItem := by
  refine ⟨rfl, rfl, fun h => ?_⟩
  have hcat := congrArg RoughItem.category h
  simp [roughMerge, roughEmptyDetail, sampleRoughItem] at hcat

/-- C1 (amended): in carrot-require-crawl.py and -apple.py the merge
overwrites each of title, location, category only when the fetched value
is non-empty, and an all-empty detail result (including the failure
sentinel and the exception branch) leaves the record unchanged; in
carrot-rough-crawl.py this conditional rule holds for title and location
only, while category is assigned unconditionally from the fetched
value. -/
theorem C1_merge_rule (it : Item) (d : Detail) (rit : RoughItem) (rd : RoughDetail) :
    (mergeDetail it d).title = (if d.title = "" then it.title else d.title)
  ∧ (mergeDetail it d).location = (if d.location = "" then it.location else d.location)
  ∧ (mergeDetail it d).category = (if d.category = "" then it.category else d.category)
  ∧ mergeDetail it failResult = it
  ∧ mergeOutcome it TaskResult.exn = it
  ∧ (roughMerge rit rd).title = (if rd.title = "" then rit.title else rd.title)
  ∧ (roughMerge rit rd).location = (if rd.location = "" then rit.location else rd.location)
  ∧ (roughMerge rit rd).category = rd.category := by
  refine ⟨?_, ?_, ?_, mergeDetail_empty it, ?_, ?_, ?_, ?_⟩ <;>
    simp [mergeDetail, mergeOutcome, TaskResult.extra, roughMerge, failResult]

/-- C3 (as stated, refuted): a record whose url is empty is dropped by
dedupe even though it is the first occurrence of its url, so dedupe does
not keep the first occurrence of every url. -/
theorem C3_counterexample :
    emptyUrlItem.url = ""
  ∧ dedupe [emptyUrlItem] = []
  ∧ dedupe [emptyUrlItem] ≠ [emptyUrlItem] := by
  refine ⟨rfl, rfl, ?_⟩
  intro h
  exact List.cons_ne_nil _ _ h.symm

/-- C3 (amended): dedupe keeps exactly the first occurrence of each
non-empty url (for every non-empty url the first match in the output is
the first match in the input), drops every record with an empty url and
every later duplicate, preserves the relative order of kept records
(sublist), and is idempotent. -/
theorem C3_dedupe (xs : List Item) :
    (dedupe xs).Sublist xs
  ∧ (∀ i ∈ dedupe xs, i.url ≠ "")
  ∧ ((dedupe xs).map Item.url).Nodup
  ∧ (∀ u : String, u ≠ "" →
      (dedupe xs).find? (fun i => i.url == u) = xs.find? (fun i => i.url == u))
  ∧ dedupe (dedupe xs) = dedupe xs := by
  refine ⟨dedupeAux_sublist [] xs, fun i hi => (mem_dedupeAux [] xs i hi).1,
    dedupeAux_nodup [] xs, fun u hu => dedupeAux_find? xs u [] hu (by simp), ?_⟩
  exact dedupeAux_id (dedupe xs) []
    (fun i hi => (mem_dedupeAux [] xs i hi).1) (dedupeAux_nodup [] xs)
    (fun i _ => by simp)

/-- C3 witness: the first-occurrence characterization and idempotence at
a concrete input with a duplicated url. -/
theorem C3_witness :
    (dedupe [itemA, itemB, itemA]).find? (fun i => i.url == "https://www.daangn.com/a/1")
      = [itemA, itemB, itemA].find? (fun i => i.url == "https://www.daangn.com/a/1")
  ∧ dedupe (dedupe [itemA, itemB, itemA]) = dedupe [itemA, itemB, itemA] :=
  ⟨(C3_dedupe [itemA, itemB, itemA]).2.2.2.1 "https://www.daangn.com/a/1" (by decide),
   (C3_dedupe [itemA, itemB, itemA]).2.2.2.2⟩

/-- C5 (confirmed): the price parse yields exactly the value of the
first digit run of the normalized string (a natural number, never
negative) and None when no digit run exists; the filter keeps a record
iff (besides the optional status condition) its parsed price v satisfies
min_price ≤ v and, when max_price is configured, v ≤ max_price; a record
whose price string has no digit run is always dropped. -/
theorem C5_price_stage (s : String) (soldOnly : Bool) (minP : Int)
    (maxP : Option Int) (it : Item) :
    parsePrice s = (firstDigitRun (normalizePrice s.data)).map digitsToNat
  ∧ (∀ v, parsePrice s = some v → 0 ≤ (v : Int))
  ∧ (appleKeep soldOnly minP maxP it = true ↔
      ((soldOnly = true → String.mk (stripWS it.status.data) ∈ SOLD_STATUSES)
       ∧ ∃ v, parsePrice it.price = some v ∧ minP ≤ (v : Int)
           ∧ ∀ m, maxP = some m → (v : Int) ≤ m))
  ∧ (firstDigitRun (normalizePrice it.price.data) = none →
      appleKeep soldOnly minP maxP it = false) := by
  refine ⟨parsePrice_eq s, fun v _ => Int.ofNat_nonneg v, ?_, ?_⟩
  · cases hp : parsePrice it.price with
    | none => cases soldOnly <;> simp [appleKeep, hp]
    | some v =>
      cases maxP with
      | none => cases soldOnly <;> simp [appleKeep, hp]
      | some m => cases soldOnly <;> simp [appleKeep, hp]
  · intro h
    have hp : parsePrice it.price = none := by
      rw [parsePrice_eq, h]; rfl
    cases soldOnly <;> simp [appleKeep, hp]

/-- C5 witness: a record whose price string has no digit run is dropped
by the filter, at a concrete input. -/
theorem C5_witness : appleKeep true 35000 none noDigitItem = false :=
  (C5_price_stage "35,000원" true 35000 none noDigitItem).2.2.2 (by rfl)

/-- C6 (confirmed): with an allow-set, the category pre-pass outputs the
known-allowed records followed by the blank-category records, each group
a subsequence of the input (input order); every output record is
known-allowed or blank; a record with a known disallowed category is
dropped; the combined order is this visiting-priority order. -/
theorem C6_category_prepass (aset : List String) (items : List Item) :
    ∃ A B, categoryPrePass (some aset) items = A ++ B
    ∧ A.Sublist items ∧ B.Sublist items
    ∧ (∀ r ∈ A, r.category ∈ aset)
    ∧ (∀ r ∈ B, blankCat r = true)
    ∧ (∀ r ∈ items, r.category ∈ aset → r ∈ A)
    ∧ (∀ r ∈ items, blankCat r = true → r ∈ B)
    ∧ (∀ r ∈ categoryPrePass (some aset) items, r.category ∈ aset ∨ blankCat r = true)
    ∧ (∀ r ∈ items, r.category ∉ aset → blankCat r = false →
        r ∉ categoryPrePass (some aset) items) := by
  refine ⟨items.filter (fun i => decide (i.category ∈ aset)), items.filter blankCat,
    rfl, List.filter_sublist _, List.filter_sublist _, ?_, ?_, ?_, ?_, ?_, ?_⟩
  · intro r hr; simpa using (List.mem_filter.mp hr).2
  · intro r hr; exact (List.mem_filter.mp hr).2
  · intro r hr h; exact List.mem_filter.mpr ⟨hr, by simpa using h⟩
  · intro r hr h; exact List.mem_filter.mpr ⟨hr, h⟩
  · intro r hr
    rcases List.mem_append.mp hr with h | h
    · exact Or.inl (by simpa using (List.mem_filter.mp h).2)
    · exact Or.inr ((List.mem_filter.mp h).2)
  · intro r _ h1 h2 hmem
    rcases List.mem_append.mp hmem with h | h
    · exact h1 (by simpa using (List.mem_filter.mp h).2)
    · rw [(List.mem_filter.mp h).2] at h2; exact Bool.true_eq_false.mp h2

/-- C6 witness: the characterization applied to a concrete input where a
blank-category record precedes a known-allowed one. -/
theorem C6_witness :
    ∃ A B, categoryPrePass (some ["디지털기기"]) [itemB, itemA] = A ++ B
    ∧ A.Sublist [itemB, itemA] ∧ B.Sublist [itemB, itemA]
    ∧ (∀ r ∈ A, r.category ∈ ["디지털기기"])
    ∧ (∀ r ∈ B, blankCat r = true)
    ∧ (∀ r ∈ [itemB, itemA], r.category ∈ ["디지털기기"] → r ∈ A)
    ∧ (∀ r ∈ [itemB, itemA], blankCat r = true → r ∈ B)
    ∧ (∀ r ∈ categoryPrePass (some ["디지털기기"]) [itemB, itemA],
        r.category ∈ ["디지털기기"] ∨ blankCat r = true)
    ∧ (∀ r ∈ [itemB, itemA], r.category ∉ ["디지털기기"] → blankCat r = false →
        r ∉ categoryPrePass (some ["디지털기기"]) [itemB, itemA]) :=
  C6_category_prepass ["디지털기기"] [itemB, itemA]

/-- C10 (confirmed): the require-crawl enrichment merge touches at most
title, location and category; for every record and every gather outcome
the price, time, status and url fields are unchanged. -/
theorem C10_enrichment_frame (it : Item) (r : TaskResult) :
    (mergeOutcome it r).price = it.price
  ∧ (mergeOutcome it r).time = it.time
  ∧ (mergeOutcome it r).status = it.status
  ∧ (mergeOutcome it r).url = it.url := by
  cases r <;> simp [mergeOutcome, mergeDetail, TaskResult.extra]

/-- C7 (confirmed): for a non-empty candidate list and configured
concurrency c ≥ 1 the pool has exactly min(c, n) page handles (n the
candidate count); the candidates split into ceil(n / m) contiguous
batches (m the pool size) whose concatenation is the input, every batch
except possibly the last has size exactly m, every batch has size
between 1 and m, and position j of a batch is served by handle j, an
index below the pool size. -/
theorem C7_pool_batches (c : Nat) (items : List Item) (hc : 1 ≤ c) (hn : items ≠ []) :
    poolSize c items.length = min c items.length
  ∧ 1 ≤ poolSize c items.length
  ∧ (chunksOf (poolSize c items.length) items).length
      = (items.length + poolSize c items.length - 1) / poolSize c items.length
  ∧ (chunksOf (poolSize c items.length) items).flatten = items
  ∧ (∀ b ∈ chunksOf (poolSize c items.length) items,
      1 ≤ b.length ∧ b.length ≤ poolSize c items.length)
  ∧ (∀ b ∈ (chunksOf (poolSize c items.length) items).dropLast,
      b.length = poolSize c items.length)
  ∧ (∀ b ∈ chunksOf (poolSize c items.length) items,
      ∀ j ∈ List.range b.length, j < poolSize c items.length) := by
  have hn' : items.length ≠ 0 := fun h => hn (List.length_eq_zero.mp h)
  have hm : poolSize c items.length = min c items.length := by simp [poolSize, hn']
  have hm1 : 1 ≤ poolSize c items.length := by
    rw [hm]; exact le_min hc (by omega)
  refine ⟨hm, hm1, chunksOf_length _ hm1 items, chunksOf_flatten _ items,
    chunksOf_sizes _ hm1 items, chunksOf_dropLast _ hm1 items, ?_⟩
  intro b hb j hj
  have hsz := (chunksOf_sizes _ hm1 items b hb).2
  have hj' := List.mem_range.mp hj
  omega

/-- C7 witness: concurrency 4 over 10 candidates gives batches of sizes
4, 4, 2 whose concatenation is the input. -/
theorem C7_witness :
    (chunksOf (poolSize 4 tenItems.length) tenItems).map List.length = [4, 4, 2]
  ∧ (chunksOf (poolSize 4 tenItems.length) tenItems).flatten = tenItems :=
  ⟨by decide, (C7_pool_batches 4 tenItems (by decide) (by decide)).2.2.2.1⟩

/-- C4 (confirmed): the merge loop writes results[j] back into chunk[j]
and asyncio.gather returns results positionally (results[j] belongs to
task j) independently of completion order, so for every per-record
outcome assignment (successes, empty sentinels, or exception objects)
and every pool size c ≥ 1 the enrichment output has exactly the input
length, and the record at each position k is the input record at k
merged with outcome k — in particular its url is unchanged, so the
record order equals the input order. -/
theorem C4_enrichment_order (items : List Item) (outs : List TaskResult) (c : Nat)
    (_hc : 1 ≤ c) (hlen : outs.length = items.length) :
    (enrichPairs c (items.zip outs)).length = items.length
  ∧ (∀ k (hk1 : k < (enrichPairs c (items.zip outs)).length) (hk2 : k < items.length)
      (hk3 : k < outs.length),
      (enrichPairs c (items.zip outs)).get ⟨k, hk1⟩
        = mergeOutcome (items.get ⟨k, hk2⟩) (outs.get ⟨k, hk3⟩))
  ∧ (∀ k (hk1 : k < (enrichPairs c (items.zip outs)).length) (hk2 : k < items.length),
      ((enrichPairs c (items.zip outs)).get ⟨k, hk1⟩).url = (items.get ⟨k, hk2⟩).url) := by
  have hmap := enrichPairs_eq_map c (items.zip outs)
  have hlen2 : (items.zip outs).length = items.length := by
    rw [List.length_zip]; omega
  have hget : ∀ k (hk1 : k < (enrichPairs c (items.zip outs)).length)
      (hk2 : k < items.length) (hk3 : k < outs.length),
      (enrichPairs c (items.zip outs)).get ⟨k, hk1⟩
        = mergeOutcome (items.get ⟨k, hk2⟩) (outs.get ⟨k, hk3⟩) := by
    intro k hk1 hk2 hk3
    have hk4 : k < (List.map (fun p => mergeOutcome p.1 p.2) (items.zip outs)).length := by
      rw [← hmap]; exact hk1
    simp only [List.get_eq_getElem, hmap]
    rw [List.getElem_map, List.getElem_zip]
  refine ⟨by rw [hmap, List.length_map, hlen2], hget, ?_⟩
  intro k hk1 hk2
  rw [hget k hk1 hk2 (by omega), mergeOutcome_url]

/-- C4 witness: a two-record batch run with one success and one injected
exception keeps the input length. -/
theorem C4_witness :
    (enrichPairs 1 ([itemA, itemB].zip [TaskResult.ok sampleDetail, TaskResult.exn])).length
      = [itemA, itemB].length :=
  (C4_enrichment_order [itemA, itemB] [TaskResult.ok sampleDetail, TaskResult.exn] 1
    (by decide) (by decide)).1

/-- C2 (as stated, refuted): a detail fetch that fails at page level
(page.goto raises) returns the all-empty sentinel from inside
_fetch_detail, so gather sees an ordinary dict, any_fail stays false, and
the batch containing the failed fetch is followed by the NORMAL delay of
800 ms, not the failure delay of 200 ms. -/
theorem C2_counterexample :
    fetchDetail false true sampleDetail = failResult
  ∧ batchDelays 1 DETAIL_PAGE_DELAY_MS_ON_FAIL DETAIL_PAGE_DELAY_MS
      [(itemA, TaskResult.ok (fetchDetail false true sampleDetail)),
       (itemB, TaskResult.ok sampleDetail)]
      = [DETAIL_PAGE_DELAY_MS]
  ∧ DETAIL_PAGE_DELAY_MS ≠ DETAIL_PAGE_DELAY_MS_ON_FAIL :=
  ⟨rfl, rfl, by decide⟩

/-- C2 (amended): after every batch except the last the pool waits the
failure delay iff some gather result of that batch is an exception
object, else the normal delay, and no delay is taken after the final
batch; but _fetch_detail converts every page-level failure into the
ok-wrapped empty sentinel (never an exception object), so such failures
do not trigger the failure delay. -/
theorem C2_batch_delays (c : Nat) (_hc : 1 ≤ c) (ps : List (Item × TaskResult))
    (gotoOk evalOk : Bool) (d : Detail) :
    batchDelays c DETAIL_PAGE_DELAY_MS_ON_FAIL DETAIL_PAGE_DELAY_MS ps
      = ((chunksOf c ps).dropLast).map
          (fun b => if anyFail b then DETAIL_PAGE_DELAY_MS_ON_FAIL
                    else DETAIL_PAGE_DELAY_MS)
  ∧ (TaskResult.ok (fetchDetail gotoOk evalOk d)).isExn = false :=
  ⟨batchDelays_eq c DETAIL_PAGE_DELAY_MS_ON_FAIL DETAIL_PAGE_DELAY_MS ps, rfl⟩

/-- C2 witness: the delay schedule of a concrete three-batch run with an
exception in the middle batch. -/
theorem C2_witness :
    batchDelays 1 DETAIL_PAGE_DELAY_MS_ON_FAIL DETAIL_PAGE_DELAY_MS
      [(itemA, TaskResult.ok sampleDetail), (itemB, TaskResult.exn),
       (noDigitItem, TaskResult.ok sampleDetail)]
      = ((chunksOf 1 [(itemA, TaskResult.ok sampleDetail), (itemB, TaskResult.exn),
          (noDigitItem, TaskResult.ok sampleDetail)]).dropLast).map
          (fun b => if anyFail b then DETAIL_PAGE_DELAY_MS_ON_FAIL
                    else DETAIL_PAGE_DELAY_MS)
  ∧ (TaskResult.ok (fetchDetail true true sampleDetail)).isExn = false :=
  C2_batch_delays 1 (by decide)
    [(itemA, TaskResult.ok sampleDetail), (itemB, TaskResult.exn),
     (noDigitItem, TaskResult.ok sampleDetail)] true true sampleDetail

theorem constEnv_obs (n i : Nat) : (constEnv n).obs i = n := rfl

theorem constEnv_btnPresent (n i : Nat) : (constEnv n).btnPresent i = true := rfl

theorem constEnv_btnEnabled (n i : Nat) : (constEnv n).btnEnabled i = true := rfl

theorem constEnv_clickOk (n i : Nat) : (constEnv n).clickOk i = true := rfl

theorem growEnv_obs (n i : Nat) : (growEnv n).obs i = n + i := rfl

theorem growEnv_btnPresent (n i : Nat) : (growEnv n).btnPresent i = true := rfl

theorem growEnv_btnEnabled (n i : Nat) : (growEnv n).btnEnabled i = true := rfl

theorem growEnv_clickOk (n i : Nat) : (growEnv n).clickOk i = true := rfl

theorem expandLoop_isSome (env : ExpandEnv) (target : Nat) (hmono : Monotone env.obs) :
    ∀ (fuel prev i trig : Nat), 1 ≤ fuel →
    (target + 1 ≤ fuel + env.obs i ∨ env.obs i = prev) →
    (expandLoop env target fuel prev i trig).isSome := by
  intro fuel
  induction fuel with
  | zero => intro prev i trig h _; omega
  | succ f ih =>
    intro prev i trig _ hcond
    simp only [expandLoop]
    split_ifs with h1 h2 h3 h4 h5
    · simp
    · simp
    · simp
    · simp
    · simp
    · rcases hcond with hc1 | hc2
      · have hlt : env.obs i < target := Nat.not_le.mp h1
        apply ih (env.obs i) (i + 1) (trig + 1) (by omega)
        have hmle : env.obs i ≤ env.obs (i + 1) := hmono (Nat.le_succ i)
        rcases Nat.eq_or_lt_of_le hmle with he | hgt
        · exact Or.inr he.symm
        · exact Or.inl (by omega)
      · exact absurd hc2 h2

theorem expand_const (n target : Nat) (h1 : 1 ≤ n) (h2 : n < target) :
    expand (constEnv n) target = some (n, 1, StopReason.stalled) := by
  obtain ⟨t, rfl⟩ : ∃ t, target = t + 1 := ⟨target - 1, by omega⟩
  show expandLoop (constEnv n) (t + 1) (t + 2) 0 0 0 = _
  simp only [expandLoop, constEnv_obs, constEnv_btnPresent, constEnv_btnEnabled,
    constEnv_clickOk, Bool.not_true, Bool.false_eq_true, if_false]
  rw [if_neg (by omega : ¬ (t + 1 ≤ n)), if_neg (by omega : ¬ (n = 0)),
    if_neg (by omega : ¬ (t + 1 ≤ n))]
  simp

theorem expandLoop_grow (n0 target : Nat) :
    ∀ (fuel i trig prev : Nat), prev < n0 + i → n0 + i ≤ target →
    target + 1 ≤ fuel + (n0 + i) →
    expandLoop (growEnv n0) target fuel prev i trig
      = some (target, trig + (target - (n0 + i)), StopReason.targetReached) := by
  intro fuel
  induction fuel with
  | zero => intro i trig prev _ hle hfuel; omega
  | succ f ih =>
    intro i trig prev hprev hle hfuel
    simp only [expandLoop, growEnv_obs]
    by_cases ht : target ≤ n0 + i
    · have heq : n0 + i = target := le_antisymm hle ht
      rw [if_pos ht, heq]
      simp
    · rw [if_neg ht, if_neg (by omega : ¬ (n0 + i = prev))]
      rw [ih (i + 1) (trig + 1) (n0 + i) (by omega) (by omega) (by omega)]
      have harith : trig + 1 + (target - (n0 + (i + 1))) = trig + (target - (n0 + i)) := by
        omega
      rw [harith]
      simp only [growEnv_btnPresent, growEnv_btnEnabled, growEnv_clickOk,
        Bool.not_true, Bool.false_eq_true, if_false]

theorem pollAux_const (cnt : Nat → Nat) (prev : Nat) (hc : ∀ t, cnt t ≤ prev) :
    ∀ (r t : Nat), pollAux cnt prev r t = t + r := by
  intro r
  induction r with
  | zero => intro t; rfl
  | succ r ih =>
    intro t
    simp only [pollAux]
    rw [if_neg (show ¬ (prev < cnt (t + 1)) by have := hc (t + 1); omega)]
    rw [ih (t + 1)]
    omega

/-- C8 (confirmed): with a monotone card source the load-more loop
always terminates within the fuel bound target + 1 (every non-exiting
iteration strictly increases the observed count); with a source that
never grows (1 ≤ n < target, button available) it performs exactly one
trigger and exits as stalled at count n on the very next iteration — the
poll after that single trigger running the full deadline of
POLL_MAX_TICKS intervals, so the loop ends within one poll deadline
after the first trigger; and with a source that grows by one card per
trigger starting at n it exits exactly at count targetCount. -/
theorem C8_expansion_termination (env : ExpandEnv) (target n : Nat)
    (hmono : Monotone env.obs) (h1 : 1 ≤ n) (h2 : n < target) :
    (expand env target).isSome
  ∧ expand (constEnv n) target = some (n, 1, StopReason.stalled)
  ∧ pollUsed (fun _ => n) n POLL_MAX_TICKS = POLL_MAX_TICKS
  ∧ expand (growEnv n) target = some (target, target - n, StopReason.targetReached) := by
  refine ⟨?_, expand_const n target h1 h2, ?_, ?_⟩
  · exact expandLoop_isSome env target hmono (target + 1) 0 0 0 (by omega)
      (Or.inl (by omega))
  · exact pollAux_const (fun _ => n) n (fun _ => le_rfl) POLL_MAX_TICKS 0
  · have hg := expandLoop_grow n target (target + 1) 0 0 0 (by omega) (by omega) (by omega)
    simpa [expand] using hg

/-- C8 witness: the termination statement at a concrete environment
(constant source 3, target 10) and the two concrete scenarios. -/
theorem C8_witness :
    (expand (constEnv 3) 10).isSome
  ∧ expand (constEnv 3) 10 = some (3, 1, StopReason.stalled)
  ∧ pollUsed (fun _ => 3) 3 POLL_MAX_TICKS = POLL_MAX_TICKS
  ∧ expand (growEnv 3) 10 = some (10, 7, StopReason.targetReached) :=
  C8_expansion_termination (constEnv 3) 10 3 (fun _ _ _ => le_rfl) (by decide) (by decide)

/-- C9 (confirmed): when zero records survive the status/price filter
stage, the apple run reports the explicit no-qualifying-records signal,
performs no detail visits and writes no CSV artifact. -/
theorem C9_no_qualifying (soldOnly : Bool) (minP : Int) (maxP : Option Int)
    (allowed : Option (List String)) (outs : List TaskResult) (raw : List Item)
    (h : statusPriceFilter soldOnly minP maxP (dedupe raw) = []) :
    applePipeline soldOnly minP maxP allowed outs raw
      = { noQualifying := true, detailVisits := [], csvRows := none } := by
  simp [applePipeline, h]

/-- C9 witness: a one-record run whose price string parses to None is
fully dropped by the filter and the run exits with the signal, no
visits, no CSV. -/
theorem C9_witness :
    applePipeline true 35000 none none [] [noDigitItem]
      = { noQualifying := true, detailVisits := [], csvRows := none } :=
  C9_no_qualifying true 35000 none none [] [noDigitItem] (by rfl)

end Crawl
